import Mathlib

/-!
Shallow embedding of the `ai` package of the Kuhn-poker self-play repository:
the game environment (`ai/environment.py`), the tabular agent (`ai/agent.py`)
and the self-play training loop (`ai/train.py`), together with theorems that
settle the specification claims about them.

Modelling conventions:
* Python floats are modelled by `Rat`; every reward occurring in the code is
  `0`, `1` or `-1`, all exact.
* Python dicts (which preserve insertion order) are modelled by insertion
  ordered association lists (`List (String × _)`).
* `random.random()` and `random.choice` draws are passed in explicitly as
  oracle arguments; the environment's shuffled deal is passed in as the two
  dealt cards.
* Python exceptions are modelled by `Except`; each `raise` happens before any
  mutation in the source, so the error cases return no successor state.
-/

/-- The three-card deck, from `KuhnPokerEnv.cards = ("J", "Q", "K")`. -/
inductive Card
  | J
  | Q
  | K
deriving DecidableEq

/-- `_CARD_ORDER = {"J": 0, "Q": 1, "K": 2}`. -/
def cardOrder : Card → Nat
  | .J => 0
  | .Q => 1
  | .K => 2

/-- The card symbol used inside observation keys. -/
def cardName : Card → String
  | .J => "J"
  | .Q => "Q"
  | .K => "K"

/-- The mutable state of `KuhnPokerEnv`: `player_cards`, `history` (a string
over the characters p/b/c/f), `current_player`, and the `_done` flag. -/
structure EnvState where
  player_cards : Card × Card
  history : String
  current_player : Nat
  done : Bool
deriving DecidableEq

/-- `Observation` dataclass: the acting player, that player's card, and the
history so far. -/
structure Observation where
  player : Nat
  card : Card
  history : String
deriving DecidableEq

/-- `Observation.key`: the f-string `P{player}:{card}:{history}`. -/
def Observation.key (o : Observation) : String :=
  "P" ++ toString o.player ++ ":" ++ cardName o.card ++ ":" ++ o.history

/-- `player_cards[p]` for the two-element tuple. -/
def playerCard (s : EnvState) (p : Nat) : Card :=
  if p = 0 then s.player_cards.1 else s.player_cards.2

/-- `KuhnPokerEnv._observation`: observation for the active player. -/
def observationOf (s : EnvState) : Observation :=
  ⟨s.current_player, playerCard s s.current_player, s.history⟩

/-- `KuhnPokerEnv.legal_actions`: pure decision on `_done` and `history`. -/
def legal_actions (s : EnvState) : List String :=
  if s.done then []
  else if s.history = "" ∨ s.history = "p" then ["check", "bet"]
  else if s.history = "b" ∨ s.history = "pb" then ["call", "fold"]
  else []

/-- `KuhnPokerEnv._compare_cards`: index of the winning player. -/
def compare_cards (s : EnvState) : Nat :=
  let strength_a := cardOrder s.player_cards.1
  let strength_b := cardOrder s.player_cards.2
  if strength_a = strength_b then 0
  else if strength_a > strength_b then 0
  else 1

/-- The two exceptions `step` can raise: `RuntimeError` when stepping a
terminated episode, `ValueError` for an action outside the legal set, and the
(unreachable) final `ValueError` for an unsupported action string. -/
inductive StepError
  | invalidState
  | illegalAction
  | unsupportedAction
deriving DecidableEq

deriving instance DecidableEq for Except

/-- The `info` dictionary returned by `step`. -/
structure StepInfo where
  winner : Option Nat
  history : String
deriving DecidableEq

/-- The 4-tuple returned by `step`: observation (None if terminal), reward,
done flag, info. -/
structure StepOut where
  obs : Option Observation
  reward : Rat
  done : Bool
  info : StepInfo
deriving DecidableEq

/-- `KuhnPokerEnv.step`, with the successor environment state made explicit.
Both `raise` statements occur before any mutation, so errors carry no
successor state. -/
def step (s : EnvState) (action : String) : Except StepError (StepOut × EnvState) :=
  if s.done then .error .invalidState
  else if action ∉ legal_actions s then .error .illegalAction
  else if action = "check" then
    let h := s.history ++ "p"
    if h = "pp" then
      let winner := compare_cards s
      let reward : Rat := if winner = s.current_player then 1 else -1
      let s' := { s with history := h, done := true }
      .ok (⟨none, reward, true, ⟨some winner, h⟩⟩, s')
    else
      let s' := { s with history := h, current_player := 1 - s.current_player }
      .ok (⟨some (observationOf s'), 0, false, ⟨none, h⟩⟩, s')
  else if action = "bet" then
    let s' := { s with history := s.history ++ "b", current_player := 1 - s.current_player }
    .ok (⟨some (observationOf s'), 0, false, ⟨none, s'.history⟩⟩, s')
  else if action = "call" then
    let h := s.history ++ "c"
    let winner := compare_cards s
    let reward : Rat := if winner = s.current_player then 1 else -1
    let s' := { s with history := h, done := true }
    .ok (⟨none, reward, true, ⟨some winner, h⟩⟩, s')
  else if action = "fold" then
    let h := s.history ++ "f"
    let winner := 1 - s.current_player
    let s' := { s with history := h, done := true }
    .ok (⟨none, -1, true, ⟨some winner, h⟩⟩, s')
  else .error .unsupportedAction

/-- Successor state of a successful `step`; `none` on the error paths. -/
def stepState (s : EnvState) (action : String) : Option EnvState :=
  match step s action with
  | .ok (_, s') => some s'
  | .error _ => none

/-- `KuhnPokerEnv.reset` after the deck shuffle has dealt `c0` to player 0 and
`c1` to player 1: empty history, player 0 to act, not done. -/
def resetState (c0 c1 : Card) : EnvState :=
  ⟨(c0, c1), "", 0, false⟩

/-- Environment states reachable from some `reset` (any deal of two distinct
cards, as produced by shuffling the three-card deck) by successful `step`s. -/
inductive Reachable : EnvState → Prop
  | reset (c0 c1 : Card) (h : c0 ≠ c1) : Reachable (resetState c0 c1)
  | step {s s' : EnvState} {a : String} (hs : Reachable s)
      (h : stepState s a = some s') : Reachable s'

/-- State invariant of the environment: the cards are distinct and the
history, acting player and done flag are one of the nine combinations that
actually occur during a hand. -/
def EnvInv (s : EnvState) : Prop :=
  s.player_cards.1 ≠ s.player_cards.2 ∧
  ((s.history = "" ∧ s.current_player = 0 ∧ s.done = false) ∨
   (s.history = "p" ∧ s.current_player = 1 ∧ s.done = false) ∨
   (s.history = "b" ∧ s.current_player = 1 ∧ s.done = false) ∨
   (s.history = "pb" ∧ s.current_player = 0 ∧ s.done = false) ∨
   (s.history = "pp" ∧ s.current_player = 1 ∧ s.done = true) ∨
   (s.history = "bc" ∧ s.current_player = 1 ∧ s.done = true) ∨
   (s.history = "bf" ∧ s.current_player = 1 ∧ s.done = true) ∨
   (s.history = "pbc" ∧ s.current_player = 0 ∧ s.done = true) ∨
   (s.history = "pbf" ∧ s.current_player = 0 ∧ s.done = true))

instance (s : EnvState) : Decidable (EnvInv s) := by
  unfold EnvInv
  infer_instance

/-- The `legal_actions` table exactly as the specification words it: a pure
function of the history string alone. Modelled from the spec for the
refinement part of the claim about `legal_actions`. -/
def legalOfHistorySpec (h : String) : List String :=
  if h = "" ∨ h = "p" then ["check", "bet"]
  else if h = "b" ∨ h = "pb" then ["call", "fold"]
  else []

/-- First binding of a key in an insertion-ordered dict, like Python
`d[k]`-lookup / `d.get(k)`. -/
def dictFind {α : Type} (k : String) : List (String × α) → Option α
  | [] => none
  | (k', v) :: rest => if k' = k then some v else dictFind k rest

/-- Python `d.get(k, default)`. -/
def dictGetD {α : Type} (m : List (String × α)) (k : String) (d : α) : α :=
  (dictFind k m).getD d

/-- Python `d[k] = v`: overwrite in place if the key exists (keeping its
position), otherwise append the new binding at the end. -/
def dictSet {α : Type} (m : List (String × α)) (k : String) (v : α) : List (String × α) :=
  match m with
  | [] => [(k, v)]
  | (k', v') :: rest => if k' = k then (k', v) :: rest else (k', v') :: dictSet rest k v

/-- `defaultdict` access combined with an in-place mutation of the entry:
`f` is applied to the existing entry, or to the default `d` for a fresh key,
whose binding is then appended at the end (Python dict insertion order). -/
def tableModify {α : Type} (t : List (String × α)) (k : String) (d : α) (f : α → α) :
    List (String × α) :=
  match t with
  | [] => [(k, f d)]
  | (k', v) :: rest => if k' = k then (k', f v) :: rest else (k', v) :: tableModify rest k d f

/-- Keys of a dict, in insertion order. -/
def dictKeys {α : Type} (m : List (String × α)) : List String :=
  m.map Prod.fst

/-- `TabularAgent`: exploration rate, `_values` (state key → action → running
average return) and `_counts` (state key → action → visit count). -/
structure Agent where
  epsilon : Rat
  values : List (String × List (String × Rat))
  counts : List (String × List (String × Nat))
deriving DecidableEq

/-- A freshly constructed `TabularAgent(epsilon)`. -/
def freshAgent (epsilon : Rat) : Agent :=
  ⟨epsilon, [], []⟩

/-- The error raised by `select_action` on an empty legal set. -/
inductive AgentError
  | noLegalActions
deriving DecidableEq

/-- The greedy scan of `select_action`: `best_action = legal[0]`,
`best_value = values.get(best_action, 0.0)`, then replace the best on a
strictly greater value only. -/
def bestLoop (vals : List (String × Rat)) : List String → String → Rat → String
  | [], bestA, _ => bestA
  | a :: rest, bestA, bestV =>
    let av := dictGetD vals a 0
    if av > bestV then bestLoop vals rest a av else bestLoop vals rest bestA bestV

/-- `TabularAgent.select_action`. The `random.random()` draw is `r` and the
index `random.choice` would pick is `idx`. The greedy branch reads
`self._values[state_key]`, which on a fresh key inserts an empty dict into the
value table (the `defaultdict` side effect). -/
def select_action (ag : Agent) (key : String) (legal : List String) (r : Rat) (idx : Nat) :
    Except AgentError (String × Agent) :=
  match legal with
  | [] => .error .noLegalActions
  | a0 :: rest =>
    if r < ag.epsilon then
      .ok ((a0 :: rest).getD idx a0, ag)
    else
      let vals := dictGetD ag.values key []
      let chosen := bestLoop vals rest a0 (dictGetD vals a0 0)
      .ok (chosen, { ag with values := tableModify ag.values key [] id })

/-- `TabularAgent.update`: increment the visit count and move the stored
average toward the reward by `(reward - previous) / visits`. -/
def update (ag : Agent) (key : String) (action : String) (reward : Rat) : Agent :=
  let cEntry := dictGetD ag.counts key []
  let visits := dictGetD cEntry action 0 + 1
  let vEntry := dictGetD ag.values key []
  let previous := dictGetD vEntry action 0
  let updated := previous + (reward - previous) / (visits : Rat)
  { ag with
    counts := tableModify ag.counts key [] (fun e => dictSet e action visits),
    values := tableModify ag.values key [] (fun e => dictSet e action updated) }

/-- Python `max(items, key=item.1)`: keep the first item, replace only on a
strictly greater value, so the first maximum in iteration order wins. -/
def maxItem (best : String × Rat) : List (String × Rat) → String × Rat
  | [] => best
  | p :: rest => if p.2 > best.2 then maxItem p rest else maxItem best rest

/-- `TabularAgent.greedy_policy`: for every state with at least one recorded
action, the argmax action; states with empty action dicts are skipped. -/
def greedy_policy (ag : Agent) : List (String × String) :=
  ag.values.foldl
    (fun policy entry =>
      match entry.2 with
      | [] => policy
      | p :: rest => dictSet policy entry.1 (maxItem p rest).1)
    []

/-- `TabularAgent.value_table`: a per-state copy of the value table. -/
def value_table (ag : Agent) : List (String × List (String × Rat)) :=
  ag.values.map (fun e => (e.1, e.2.map (fun p => p)))

/-- A single externally-visible operation on one agent: an `update` call or a
`select_action` call (with its randomness oracle). -/
inductive AgentOp
  | upd (key action : String) (reward : Rat)
  | sel (key : String) (legal : List String) (r : Rat) (idx : Nat)

/-- Effect of one operation on the agent; a raising `select_action` leaves the
agent untouched because the raise precedes any table access. -/
def applyOp (ag : Agent) : AgentOp → Agent
  | .upd k a rw => update ag k a rw
  | .sel k legal r idx =>
    match select_action ag k legal r idx with
    | .ok (_, ag') => ag'
    | .error _ => ag

/-- The agent after a sequence of operations. -/
def applyOps (ops : List AgentOp) (ag : Agent) : Agent :=
  ops.foldl applyOp ag

/-- The per-episode decay from `train_self_play`:
`agent.epsilon = max(minimum_epsilon, agent.epsilon * epsilon_decay)`. -/
def epsilonDecayStep (floor decay rate : Rat) : Rat :=
  max floor (rate * decay)

/-- Exploration rate after `k` per-episode decay steps. -/
def epsilonAfter (floor decay init : Rat) : Nat → Rat
  | 0 => init
  | k + 1 => epsilonDecayStep floor decay (epsilonAfter floor decay init k)

/-- Errors `run_episode` can surface: an exception from the agent or the
environment, the `RuntimeError`s for a missing winner or missing observation,
and exhaustion of the loop fuel (never happens from a reset state). -/
inductive RunError
  | outOfFuel
  | agentFailure (e : AgentError)
  | envFailure (e : StepError)
  | missingWinner
  | noObservation
deriving DecidableEq

/-- Everything observable about one completed `run_episode` call: the winner
it returns, the two updated agents, the two agents as they stood before
credit assignment, and the two recorded trajectories. -/
structure EpisodeResult where
  winner : Nat
  ag0 : Agent
  ag1 : Agent
  pre0 : Agent
  pre1 : Agent
  traj0 : List (String × String)
  traj1 : List (String × String)
deriving DecidableEq

/-- The while-loop of `run_episode`: observe, select, record, step; on
termination run the credit-assignment loops
`for pid in (0, 1): for pair in trajectories[pid]: agents[pid].update(...)`
with `final_reward = 1.0 if pid == winner else -1.0`. -/
def runLoop : Nat → EnvState → Agent → Agent → List (Rat × Nat) →
    List (String × String) → List (String × String) → Except RunError EpisodeResult
  | 0, _, _, _, _, _, _ => .error .outOfFuel
  | Nat.succ fuel, s, ag0, ag1, rnd, t0, t1 =>
    let player := s.current_player
    let key := (observationOf s).key
    let legal := legal_actions s
    let draw := rnd.headD (0, 0)
    match select_action (if player = 0 then ag0 else ag1) key legal draw.1 draw.2 with
    | .error e => .error (.agentFailure e)
    | .ok (action, agSel) =>
      let ag0' := if player = 0 then agSel else ag0
      let ag1' := if player = 0 then ag1 else agSel
      let t0' := if player = 0 then t0 ++ [(key, action)] else t0
      let t1' := if player = 0 then t1 else t1 ++ [(key, action)]
      match step s action with
      | .error e => .error (.envFailure e)
      | .ok (out, s') =>
        if out.done then
          match out.info.winner with
          | none => .error .missingWinner
          | some w =>
            .ok ⟨w,
                 t0'.foldl (fun ag p => update ag p.1 p.2 (if 0 = w then 1 else -1)) ag0',
                 t1'.foldl (fun ag p => update ag p.1 p.2 (if 1 = w then 1 else -1)) ag1',
                 ag0', ag1', t0', t1'⟩
        else
          match out.obs with
          | none => .error .noObservation
          | some _ => runLoop fuel s' ag0' ag1' rnd.tail t0' t1'

/-- `run_episode` for one hand whose shuffle dealt `c0`/`c1`: fuel 4 is enough
for the at most three transitions of a hand. -/
def run_episode (c0 c1 : Card) (ag0 ag1 : Agent) (rnd : List (Rat × Nat)) :
    Except RunError EpisodeResult :=
  runLoop 4 (resetState c0 c1) ag0 ag1 rnd [] []

/-- Soundness facts about a single successful `step` from an `EnvInv` state,
expressed as a match so that each concrete instance is decidable: the
invariant is preserved, any reported winner is seat 0 or 1, a terminal
action (`call`, `fold`, or the check completing `pp`) sets the done flag,
and a showdown (terminal but not by fold) is decided by card comparison with
the reward given from the acting player's perspective. -/
@[reducible] def StepSound (s : EnvState) (a : String) : Prop :=
  match step s a with
  | .error _ => True
  | .ok (out, s') =>
      EnvInv s' ∧
      (out.info.winner = none ∨ out.info.winner = some 0 ∨ out.info.winner = some 1) ∧
      ((a = "call" ∨ a = "fold" ∨ s'.history = "pp") → s'.done = true) ∧
      out.done = s'.done ∧
      (out.done = true → ¬ a = "fold" →
        out.info.winner =
          some (if cardOrder s.player_cards.1 > cardOrder s.player_cards.2 then 0 else 1) ∧
        out.reward = (if out.info.winner = some s.current_player then (1 : Rat) else -1))

example : stepState (resetState Card.K Card.J) "check" =
    some ⟨(Card.K, Card.J), "p", 1, false⟩ := by decide

example : step ⟨(Card.K, Card.J), "p", 1, false⟩ "check" =
    .ok (⟨none, -1, true, ⟨some 0, "pp"⟩⟩, ⟨(Card.K, Card.J), "pp", 1, true⟩) := by decide

example : (observationOf (resetState Card.K Card.J)).key = "P0:K:" := by decide

example : EnvInv (resetState Card.K Card.J) := by decide

example : select_action (freshAgent 0) "P0:K:" ["check", "bet"] 0 0 =
    .ok ("check", ⟨0, [("P0:K:", [])], []⟩) := by decide

example : update (freshAgent 0) "P0:K:" "check" 1 =
    ⟨0, [("P0:K:", [("check", 1)])], [("P0:K:", [("check", 1)])]⟩ := by
  with_unfolding_all decide

instance (s : EnvState) (a : String) : Decidable (StepSound s a) := by
  unfold StepSound
  split
  · infer_instance
  · infer_instance

theorem step_done_error (s : EnvState) (a : String) (h : s.done = true) :
    step s a = .error .invalidState := by
  simp [step, h]

theorem step_not_legal_error (s : EnvState) (a : String) (hd : s.done = false)
    (h : a ∉ legal_actions s) : step s a = .error .illegalAction := by
  simp [step, hd, h]

theorem legal_actions_shapes (s : EnvState) :
    legal_actions s = ["check", "bet"] ∨ legal_actions s = ["call", "fold"] ∨
      legal_actions s = [] := by
  unfold legal_actions
  split
  · exact Or.inr (Or.inr rfl)
  · split
    · exact Or.inl rfl
    · split
      · exact Or.inr (Or.inl rfl)
      · exact Or.inr (Or.inr rfl)

theorem step_sound (s : EnvState) (a : String) (h : EnvInv s) : StepSound s a := by
  obtain ⟨⟨c0, c1⟩, hist, pl, dn⟩ := s
  simp only [EnvInv] at h
  obtain ⟨hc, hcase⟩ := h
  by_cases hl : a ∈ legal_actions ⟨(c0, c1), hist, pl, dn⟩
  · rcases hcase with h9 | h9 | h9 | h9 | h9 | h9 | h9 | h9 | h9 <;>
      obtain ⟨rfl, rfl, rfl⟩ := h9 <;>
      simp only [legal_actions] at hl <;>
      simp at hl <;>
      rcases hl with rfl | rfl <;>
      cases c0 <;> cases c1 <;> first
        | exact absurd rfl hc
        | decide
  · unfold StepSound
    cases dn
    · rw [step_not_legal_error _ _ rfl hl]
      trivial
    · rw [step_done_error _ _ rfl]
      trivial

theorem step_sound_apply (s : EnvState) (a : String) (out : StepOut) (s' : EnvState)
    (hs : StepSound s a) (h : step s a = .ok (out, s')) :
    EnvInv s' ∧
    (out.info.winner = none ∨ out.info.winner = some 0 ∨ out.info.winner = some 1) ∧
    ((a = "call" ∨ a = "fold" ∨ s'.history = "pp") → s'.done = true) ∧
    out.done = s'.done ∧
    (out.done = true → ¬ a = "fold" →
      out.info.winner =
        some (if cardOrder s.player_cards.1 > cardOrder s.player_cards.2 then 0 else 1) ∧
      out.reward = (if out.info.winner = some s.current_player then (1 : Rat) else -1)) := by
  unfold StepSound at hs
  rw [h] at hs
  exact hs

theorem stepState_eq_some {s : EnvState} {a : String} {s' : EnvState}
    (h : stepState s a = some s') : ∃ out, step s a = .ok (out, s') := by
  unfold stepState at h
  split at h
  · rename_i out t heq
    rw [Option.some.injEq] at h
    exact ⟨out, by rw [heq, h]⟩
  · exact absurd h (by simp)

theorem reachable_inv {s : EnvState} (h : Reachable s) : EnvInv s := by
  induction h with
  | reset c0 c1 hc => exact ⟨hc, Or.inl ⟨rfl, rfl, rfl⟩⟩
  | step hs hstep ih =>
    obtain ⟨out, hstep'⟩ := stepState_eq_some hstep
    exact (step_sound_apply _ _ _ _ (step_sound _ _ ih) hstep').1

theorem step_legal_shape (s : EnvState) (a : String) (hdn : s.done = false)
    (hl : a ∈ legal_actions s) : ∃ out s', step s a = .ok (out, s') := by
  have hl' := hl
  rcases legal_actions_shapes s with hs | hs | hs <;> rw [hs] at hl' <;> simp at hl' <;>
      rcases hl' with rfl | rfl <;>
      unfold step <;>
      rw [if_neg (by simp [hdn]), if_neg (by simp [hl])] <;>
      dsimp only
  · rw [if_pos rfl]
    by_cases hp : s.history ++ "p" = "pp"
    · rw [if_pos hp]
      exact ⟨_, _, rfl⟩
    · rw [if_neg hp]
      exact ⟨_, _, rfl⟩
  · rw [if_neg (by decide), if_pos rfl]
    exact ⟨_, _, rfl⟩
  · rw [if_neg (by decide), if_neg (by decide), if_pos rfl]
    exact ⟨_, _, rfl⟩
  · rw [if_neg (by decide), if_neg (by decide), if_neg (by decide), if_pos rfl]
    exact ⟨_, _, rfl⟩

/-- C2: on every reachable environment state, `legal_actions` is exactly the
history-determined table the spec describes — `{check, bet}` after an empty
history or a lone check, `{call, fold}` after `b` or `pb`, empty once the
hand is terminal — and no action outside those two pairs ever appears. -/
theorem legal_actions_cases (s : EnvState) (h : Reachable s) :
    legal_actions s = legalOfHistorySpec s.history ∧
    ((s.history = "" ∨ s.history = "p") → legal_actions s = ["check", "bet"]) ∧
    ((s.history = "b" ∨ s.history = "pb") → legal_actions s = ["call", "fold"]) ∧
    (s.done = true → legal_actions s = []) ∧
    (legal_actions s = ["check", "bet"] ∨ legal_actions s = ["call", "fold"] ∨
      legal_actions s = []) := by
  have hinv := reachable_inv h
  obtain ⟨⟨c0, c1⟩, hist, pl, dn⟩ := s
  simp only [EnvInv] at hinv
  obtain ⟨hc, hcase⟩ := hinv
  rcases hcase with h9 | h9 | h9 | h9 | h9 | h9 | h9 | h9 | h9 <;>
    obtain ⟨rfl, rfl, rfl⟩ := h9 <;>
    cases c0 <;> cases c1 <;> first
      | exact absurd rfl hc
      | decide

theorem legal_actions_cases_witness :
    Reachable (resetState Card.J Card.Q) ∧
    legal_actions (resetState Card.J Card.Q) = ["check", "bet"] :=
  ⟨Reachable.reset Card.J Card.Q (by decide),
   (legal_actions_cases (resetState Card.J Card.Q)
      (Reachable.reset Card.J Card.Q (by decide))).2.1 (Or.inl rfl)⟩

/-- C3 counterexample: the claim bounds reachable histories by length 2, but
the hand check, bet, call is legal and reaches the history `pbc` of length 3
(three transitions in one episode). -/
theorem history_length_counterexample :
    Reachable ⟨(Card.J, Card.Q), "pbc", 0, true⟩ ∧
    ¬ ((⟨(Card.J, Card.Q), "pbc", 0, true⟩ : EnvState).history.length ≤ 2) ∧
    (⟨(Card.J, Card.Q), "pbc", 0, true⟩ : EnvState).history.length = 3 := by
  refine ⟨?_, by decide, by decide⟩
  have h1 : Reachable (resetState Card.J Card.Q) := Reachable.reset _ _ (by decide)
  have h2 : Reachable ⟨(Card.J, Card.Q), "p", 1, false⟩ :=
    Reachable.step (a := "check") h1 (by decide)
  have h3 : Reachable ⟨(Card.J, Card.Q), "pb", 0, false⟩ :=
    Reachable.step (a := "bet") h2 (by decide)
  exact Reachable.step (a := "call") h3 (by decide)

/-- C3 (amended): every reachable history has length at most 3 (not 2 as the
claim stated: check, bet, call makes three transitions), and once a terminal
action (`call`, `fold`, or the second consecutive check) is appended the hand
is over — the done flag is set and every further `step` raises the
invalid-state error. -/
theorem history_length_bound (s : EnvState) (h : Reachable s) :
    s.history.length ≤ 3 ∧
    (s.done = true → ∀ a, step s a = .error .invalidState) ∧
    (∀ a out s', step s a = .ok (out, s') →
      (a = "call" ∨ a = "fold" ∨ s'.history = "pp") → s'.done = true) := by
  have hinv := reachable_inv h
  refine ⟨?_, fun hd a => step_done_error s a hd,
    fun a out s' hstep => (step_sound_apply s a out s' (step_sound s a hinv) hstep).2.2.1⟩
  obtain ⟨⟨c0, c1⟩, hist, pl, dn⟩ := s
  simp only [EnvInv] at hinv
  obtain ⟨hc, hcase⟩ := hinv
  rcases hcase with h9 | h9 | h9 | h9 | h9 | h9 | h9 | h9 | h9 <;>
    obtain ⟨rfl, rfl, rfl⟩ := h9 <;>
    cases c0 <;> cases c1 <;> first
      | exact absurd rfl hc
      | decide

theorem history_length_bound_witness :
    Reachable (resetState Card.Q Card.K) ∧ (resetState Card.Q Card.K).history.length ≤ 3 :=
  ⟨Reachable.reset Card.Q Card.K (by decide),
   (history_length_bound _ (Reachable.reset Card.Q Card.K (by decide))).1⟩

/-- C4: whenever `fold` is legal, stepping it ends the hand with the
non-acting player as winner and reward -1 for the folding player, uniformly
in the dealt cards — the full result of `step` is computed here without ever
consulting `player_cards`. -/
theorem step_fold (s : EnvState) (h : "fold" ∈ legal_actions s) :
    step s "fold" = .ok (⟨none, -1, true, ⟨some (1 - s.current_player), s.history ++ "f"⟩⟩,
      { s with history := s.history ++ "f", done := true }) := by
  have hd : s.done = false := by
    by_contra hcon
    rw [Bool.not_eq_false] at hcon
    simp [legal_actions, hcon] at h
  unfold step
  rw [if_neg (by simp [hd]), if_neg (by simp [h]), if_neg (by decide), if_neg (by decide),
    if_neg (by decide), if_pos rfl]

theorem step_fold_witness :
    ("fold" ∈ legal_actions ⟨(Card.J, Card.K), "b", 1, false⟩) ∧
    step ⟨(Card.J, Card.K), "b", 1, false⟩ "fold" =
      .ok (⟨none, -1, true, ⟨some 0, "bf"⟩⟩, ⟨(Card.J, Card.K), "bf", 1, true⟩) := by
  refine ⟨by decide, ?_⟩
  rw [step_fold ⟨(Card.J, Card.K), "b", 1, false⟩ (by decide)]
  decide

/-- C5: every hand that ends in a showdown (two checks or a call — any
terminal step other than a fold) is decided by card comparison: from a
reachable state the strictly higher card's holder is the winner, and the
returned reward is +1 exactly when the acting player is that winner. The
defensive branch of `_compare_cards` declares player 0 the winner on equal
strengths. -/
theorem showdown_by_comparison :
    (∀ (s : EnvState) (a : String) (out : StepOut) (s' : EnvState),
      Reachable s → step s a = .ok (out, s') → out.done = true → ¬ a = "fold" →
      out.info.winner =
        some (if cardOrder s.player_cards.1 > cardOrder s.player_cards.2 then 0 else 1) ∧
      (cardOrder s.player_cards.1 > cardOrder s.player_cards.2 → out.info.winner = some 0) ∧
      (cardOrder s.player_cards.2 > cardOrder s.player_cards.1 → out.info.winner = some 1) ∧
      out.reward = (if out.info.winner = some s.current_player then (1 : Rat) else -1)) ∧
    (∀ s : EnvState, cardOrder s.player_cards.1 = cardOrder s.player_cards.2 →
      compare_cards s = 0) := by
  constructor
  · intro s a out s' hreach hstep hdone hfold
    have hmain :=
      (step_sound_apply s a out s' (step_sound s a (reachable_inv hreach)) hstep).2.2.2.2
        hdone hfold
    refine ⟨hmain.1, ?_, ?_, hmain.2⟩
    · intro hgt
      rw [hmain.1, if_pos hgt]
    · intro hgt
      rw [hmain.1, if_neg (by omega)]
  · intro s h
    simp [compare_cards, h]

theorem showdown_by_comparison_witness :
    (some 1 : Option Nat) = some (if cardOrder Card.Q > cardOrder Card.K then 0 else 1) ∧
    (-1 : Rat) = (if (some 1 : Option Nat) = some 0 then (1 : Rat) else -1) := by
  have h1 : Reachable (resetState Card.Q Card.K) := Reachable.reset _ _ (by decide)
  have h2 : Reachable ⟨(Card.Q, Card.K), "p", 1, false⟩ :=
    Reachable.step (a := "check") h1 (by decide)
  have h3 : Reachable ⟨(Card.Q, Card.K), "pb", 0, false⟩ :=
    Reachable.step (a := "bet") h2 (by decide)
  have h := showdown_by_comparison.1 ⟨(Card.Q, Card.K), "pb", 0, false⟩ "call"
    ⟨none, -1, true, ⟨some 1, "pbc"⟩⟩ ⟨(Card.Q, Card.K), "pbc", 0, true⟩ h3
    (by decide) rfl (by decide)
  exact ⟨h.1, h.2.2.2⟩

/-- C6: `step` raises the invalid-state error exactly when the episode has
terminated; on a live state it raises the illegal-action error exactly when
the action is outside the current legal set (the errors are raised before
any state mutation); and `select_action` raises exactly when handed an empty
legal-action collection. -/
theorem error_conditions :
    (∀ (s : EnvState) (a : String),
      (step s a = .error .invalidState ↔ s.done = true) ∧
      (s.done = false → (step s a = .error .illegalAction ↔ a ∉ legal_actions s))) ∧
    (∀ (ag : Agent) (key : String) (legal : List String) (r : Rat) (idx : Nat),
      select_action ag key legal r idx = .error .noLegalActions ↔ legal = []) := by
  constructor
  · intro s a
    constructor
    · constructor
      · intro herr
        by_contra hdn
        rw [Bool.not_eq_true] at hdn
        by_cases hl : a ∈ legal_actions s
        · obtain ⟨out, s', hok⟩ := step_legal_shape s a hdn hl
          rw [hok] at herr
          exact Except.noConfusion herr
        · rw [step_not_legal_error s a hdn hl] at herr
          simp at herr
      · intro hdn
        exact step_done_error s a hdn
    · intro hdn
      constructor
      · intro herr hl
        obtain ⟨out, s', hok⟩ := step_legal_shape s a hdn hl
        rw [hok] at herr
        exact Except.noConfusion herr
      · intro hl
        exact step_not_legal_error s a hdn hl
  · intro ag key legal r idx
    cases legal with
    | nil => simp [select_action]
    | cons a0 rest =>
      simp only [select_action]
      constructor
      · intro hcon
        split at hcon
        · exact Except.noConfusion hcon
        · exact Except.noConfusion hcon
      · intro hcon
        exact absurd hcon (by simp)

theorem error_conditions_witness :
    step ⟨(Card.J, Card.Q), "pp", 1, true⟩ "check" = .error .invalidState ∧
    select_action (freshAgent 0) "P0:J:" [] 0 0 = .error .noLegalActions :=
  ⟨(error_conditions.1 ⟨(Card.J, Card.Q), "pp", 1, true⟩ "check").1.mpr rfl,
   (error_conditions.2 (freshAgent 0) "P0:J:" [] 0 0).mpr rfl⟩

theorem epsilonAfter_eq (floor decay init : Rat) (hd0 : 0 < decay) (hd1 : decay ≤ 1)
    (hf : 0 ≤ floor) (hfi : floor ≤ init) (k : Nat) :
    epsilonAfter floor decay init k = max floor (init * decay ^ k) := by
  induction k with
  | zero => simp [epsilonAfter, max_eq_right hfi]
  | succ k ih =>
    rw [epsilonAfter, epsilonDecayStep, ih]
    rcases le_or_lt floor (init * decay ^ k) with hle | hlt
    · rw [max_eq_right hle, pow_succ, ← mul_assoc]
    · have h2 : floor * decay ≤ floor := mul_le_of_le_one_right hf hd1
      have h1 : init * decay ^ (k + 1) ≤ floor := by
        rw [pow_succ, ← mul_assoc]
        exact ((mul_lt_mul_of_pos_right hlt hd0).trans_le h2).le
      rw [max_eq_left hlt.le, max_eq_left h2, max_eq_left h1]

/-- C8 counterexample: the claim quantifies over every initial rate and every
floor, but at `k = 0` the rate is the initial rate while the claimed formula
gives the floor whenever the initial rate is below it; and with a negative
floor the rate can strictly increase, refuting the monotonicity part. -/
theorem epsilon_decay_counterexample :
    epsilonAfter 1 1 0 0 ≠ max 1 ((0 : Rat) * 1 ^ 0) ∧
    epsilonAfter (-1) (1 / 2) (-1) 1 > epsilonAfter (-1) (1 / 2) (-1) 0 := by
  constructor
  · with_unfolding_all decide
  · with_unfolding_all decide

/-- C8 (amended): for decay factors in (0,1] and any floor and initial rate
with 0 ≤ floor ≤ initial (as in training, where both come from the CLI's
non-negative epsilon options), the rate after `k` per-episode decay steps
equals `max(floor, initial * decay ^ k)` exactly, is monotonically
non-increasing, and is bounded below by the floor. -/
theorem epsilon_decay_formula (floor decay init : Rat) (k : Nat)
    (hd0 : 0 < decay) (hd1 : decay ≤ 1) (hf : 0 ≤ floor) (hfi : floor ≤ init) :
    epsilonAfter floor decay init k = max floor (init * decay ^ k) ∧
    epsilonAfter floor decay init (k + 1) ≤ epsilonAfter floor decay init k ∧
    floor ≤ epsilonAfter floor decay init k := by
  have hmain := epsilonAfter_eq floor decay init hd0 hd1 hf hfi
  have hinit : (0 : Rat) ≤ init := hf.trans hfi
  refine ⟨hmain k, ?_, ?_⟩
  · rw [hmain k, hmain (k + 1)]
    apply max_le_max le_rfl
    rw [pow_succ, ← mul_assoc]
    exact mul_le_of_le_one_right (mul_nonneg hinit (pow_nonneg hd0.le k)) hd1
  · rw [hmain k]
    exact le_max_left _ _

theorem epsilon_decay_formula_witness :
    epsilonAfter 0 (1 / 2) 1 2 = max 0 ((1 : Rat) * (1 / 2) ^ 2) ∧
    epsilonAfter 0 (1 / 2) 1 3 ≤ epsilonAfter 0 (1 / 2) 1 2 ∧
    (0 : Rat) ≤ epsilonAfter 0 (1 / 2) 1 2 :=
  epsilon_decay_formula 0 (1 / 2) 1 2 (by norm_num) (by norm_num) le_rfl (by norm_num)

theorem bestLoop_spec (vals : List (String × Rat)) (rest : List String) (bestA : String) :
    (bestLoop vals rest bestA (dictGetD vals bestA 0) = bestA ∧
      ∀ b ∈ rest, dictGetD vals b 0 ≤ dictGetD vals bestA 0) ∨
    (∃ l1 l2, rest = l1 ++ bestLoop vals rest bestA (dictGetD vals bestA 0) :: l2 ∧
      dictGetD vals bestA 0 < dictGetD vals (bestLoop vals rest bestA (dictGetD vals bestA 0)) 0 ∧
      (∀ b ∈ l1,
        dictGetD vals b 0 < dictGetD vals (bestLoop vals rest bestA (dictGetD vals bestA 0)) 0) ∧
      (∀ b ∈ l2,
        dictGetD vals b 0 ≤ dictGetD vals (bestLoop vals rest bestA (dictGetD vals bestA 0)) 0)) := by
  induction rest generalizing bestA with
  | nil => exact Or.inl ⟨rfl, by simp⟩
  | cons a rest ih =>
    by_cases hgt : dictGetD vals a 0 > dictGetD vals bestA 0
    · have hstep : bestLoop vals (a :: rest) bestA (dictGetD vals bestA 0) =
          bestLoop vals rest a (dictGetD vals a 0) := by
        simp only [bestLoop]
        rw [if_pos hgt]
      rw [hstep]
      rcases ih a with ⟨heq, hall⟩ | ⟨l1, l2, hsplit, hlt, hl1, hl2⟩
      · right
        refine ⟨[], rest, by simp [heq], by rw [heq]; exact hgt, by simp, ?_⟩
        intro b hb
        rw [heq]
        exact hall b hb
      · right
        refine ⟨a :: l1, l2, by rw [List.cons_append, ← hsplit], hgt.trans hlt, ?_, hl2⟩
        intro b hb
        rcases List.mem_cons.mp hb with rfl | hb
        · exact hlt
        · exact hl1 b hb
    · have hstep : bestLoop vals (a :: rest) bestA (dictGetD vals bestA 0) =
          bestLoop vals rest bestA (dictGetD vals bestA 0) := by
        simp only [bestLoop]
        rw [if_neg hgt]
      rw [hstep]
      push_neg at hgt
      rcases ih bestA with ⟨heq, hall⟩ | ⟨l1, l2, hsplit, hlt, hl1, hl2⟩
      · left
        refine ⟨heq, ?_⟩
        intro b hb
        rcases List.mem_cons.mp hb with rfl | hb
        · exact hgt
        · exact hall b hb
      · right
        refine ⟨a :: l1, l2, by rw [List.cons_append, ← hsplit], hlt, ?_, hl2⟩
        intro b hb
        rcases List.mem_cons.mp hb with rfl | hb
        · exact hgt.trans_lt hlt
        · exact hl1 b hb

/-- C7: whenever `select_action` takes its greedy branch (the random draw is
not below the exploration rate — with rate 0 this is every call), the chosen
action splits the non-empty legal list as `l1 ++ chosen :: l2` where every
legal action's stored value (0 for absent actions) is at most the chosen
one's and everything before the chosen action is strictly below it: the first
maximizer in the supplied ordering. -/
theorem select_action_greedy (ag : Agent) (key : String) (a0 : String) (rest : List String)
    (r : Rat) (idx : Nat) (act : String) (ag' : Agent)
    (hgr : ¬ r < ag.epsilon)
    (h : select_action ag key (a0 :: rest) r idx = .ok (act, ag')) :
    ∃ l1 l2, a0 :: rest = l1 ++ act :: l2 ∧
      (∀ b ∈ a0 :: rest,
        dictGetD (dictGetD ag.values key []) b 0 ≤ dictGetD (dictGetD ag.values key []) act 0) ∧
      (∀ b ∈ l1,
        dictGetD (dictGetD ag.values key []) b 0 < dictGetD (dictGetD ag.values key []) act 0) := by
  have hact : act = bestLoop (dictGetD ag.values key []) rest a0
      (dictGetD (dictGetD ag.values key []) a0 0) := by
    simp only [select_action] at h
    rw [if_neg hgr] at h
    simp only [Except.ok.injEq, Prod.mk.injEq] at h
    exact h.1.symm
  subst hact
  rcases bestLoop_spec (dictGetD ag.values key []) rest a0 with ⟨heq, hall⟩ |
      ⟨l1, l2, hsplit, hlt, hl1, hl2⟩
  · rw [heq]
    refine ⟨[], rest, rfl, ?_, by simp⟩
    intro b hb
    rcases List.mem_cons.mp hb with rfl | hb
    · exact le_rfl
    · exact hall b hb
  · refine ⟨a0 :: l1, l2, by rw [List.cons_append, ← hsplit], ?_, ?_⟩
    · intro b hb
      rcases List.mem_cons.mp hb with rfl | hb
      · exact hlt.le
      · rw [hsplit] at hb
        rcases List.mem_append.mp hb with hb | hb
        · exact (hl1 b hb).le
        · rcases List.mem_cons.mp hb with rfl | hb
          · exact le_rfl
          · exact hl2 b hb
    · intro b hb
      rcases List.mem_cons.mp hb with rfl | hb
      · exact hlt
      · exact hl1 b hb

theorem select_action_greedy_witness :
    dictGetD (dictGetD [("s", [("check", (-1 : Rat)), ("bet", 2)])] "s" []) "check" 0 ≤
      dictGetD (dictGetD [("s", [("check", (-1 : Rat)), ("bet", 2)])] "s" []) "bet" 0 := by
  have h := select_action_greedy ⟨0, [("s", [("check", -1), ("bet", 2)])], []⟩ "s" "check"
    ["bet"] 0 0 "bet" ⟨0, [("s", [("check", -1), ("bet", 2)])], []⟩
    (by with_unfolding_all decide) (by with_unfolding_all decide)
  obtain ⟨l1, l2, -, hall, -⟩ := h
  exact hall "check" (by simp)

theorem dictFind_dictSet_self {α : Type} (m : List (String × α)) (k : String) (v : α) :
    dictFind k (dictSet m k v) = some v := by
  induction m with
  | nil => simp [dictSet, dictFind]
  | cons e m ih =>
    obtain ⟨k0, v0⟩ := e
    by_cases hk : k0 = k <;> simp [dictSet, dictFind, hk, ih]

theorem dictFind_dictSet_ne {α : Type} (m : List (String × α)) (k k' : String) (v : α)
    (h : ¬ k' = k) : dictFind k' (dictSet m k v) = dictFind k' m := by
  induction m with
  | nil => simp [dictSet, dictFind, Ne.symm h]
  | cons e m ih =>
    obtain ⟨k0, v0⟩ := e
    by_cases hk : k0 = k
    · subst hk
      simp [dictSet, dictFind, Ne.symm h]
    · simp [dictSet, dictFind, hk, ih]

theorem dictFind_tableModify_self {α : Type} (t : List (String × α)) (k : String) (d : α)
    (f : α → α) : dictFind k (tableModify t k d f) = some (f (dictGetD t k d)) := by
  induction t with
  | nil => simp [tableModify, dictFind, dictGetD]
  | cons e t ih =>
    obtain ⟨k0, v0⟩ := e
    by_cases hk : k0 = k <;> simp [tableModify, dictFind, dictGetD, hk, ih]

theorem dictFind_tableModify_ne {α : Type} (t : List (String × α)) (k k' : String) (d : α)
    (f : α → α) (h : ¬ k' = k) :
    dictFind k' (tableModify t k d f) = dictFind k' t := by
  induction t with
  | nil => simp [tableModify, dictFind, Ne.symm h]
  | cons e t ih =>
    obtain ⟨k0, v0⟩ := e
    by_cases hk : k0 = k
    · subst hk
      simp [tableModify, dictFind, Ne.symm h]
    · simp [tableModify, dictFind, hk, ih]

theorem dictGetD_tableModify_self {α : Type} (t : List (String × α)) (k : String) (d : α)
    (f : α → α) : dictGetD (tableModify t k d f) k d = f (dictGetD t k d) := by
  simp [dictGetD, dictFind_tableModify_self]

theorem dictGetD_tableModify_ne {α : Type} (t : List (String × α)) (k k' : String) (d : α)
    (f : α → α) (h : ¬ k' = k) :
    dictGetD (tableModify t k d f) k' d = dictGetD t k' d := by
  simp [dictGetD, dictFind_tableModify_ne t k k' d f h]

theorem mem_keys_dictSet {α : Type} (m : List (String × α)) (k a : String) (v : α)
    (h : a ∈ dictKeys (dictSet m k v)) : a = k ∨ a ∈ dictKeys m := by
  induction m with
  | nil => simpa [dictSet, dictKeys] using h
  | cons e m ih =>
    obtain ⟨k0, v0⟩ := e
    by_cases hk : k0 = k
    · subst hk
      simpa [dictSet, dictKeys] using h
    · simp only [dictSet, if_neg hk, dictKeys, List.map_cons, List.mem_cons] at h
      rcases h with rfl | h
      · exact Or.inr (by simp [dictKeys])
      · rcases ih h with h' | h'
        · exact Or.inl h'
        · exact Or.inr (by simp [dictKeys] at h' ⊢; exact Or.inr h')

theorem mem_keys_tableModify {α : Type} (t : List (String × α)) (k k' : String) (d : α)
    (f : α → α) (h : k' ∈ dictKeys (tableModify t k d f)) : k' = k ∨ k' ∈ dictKeys t := by
  induction t with
  | nil => simpa [tableModify, dictKeys] using h
  | cons e t ih =>
    obtain ⟨k0, v0⟩ := e
    by_cases hk : k0 = k
    · subst hk
      simpa [tableModify, dictKeys] using h
    · simp only [tableModify, if_neg hk, dictKeys, List.map_cons, List.mem_cons] at h
      rcases h with rfl | h
      · exact Or.inr (by simp [dictKeys])
      · rcases ih h with h' | h'
        · exact Or.inl h'
        · exact Or.inr (by simp [dictKeys] at h' ⊢; exact Or.inr h')

theorem nodup_tableModify {α : Type} (t : List (String × α)) (k : String) (d : α) (f : α → α)
    (h : (dictKeys t).Nodup) : (dictKeys (tableModify t k d f)).Nodup := by
  induction t with
  | nil => simp [tableModify, dictKeys]
  | cons e t ih =>
    obtain ⟨k0, v0⟩ := e
    rw [dictKeys, List.map_cons, List.nodup_cons] at h
    by_cases hk : k0 = k
    · subst hk
      have hmod : tableModify ((k0, v0) :: t) k0 d f = (k0, f v0) :: t := by
        simp [tableModify]
      rw [hmod, dictKeys, List.map_cons, List.nodup_cons]
      exact h
    · have hmod : tableModify ((k0, v0) :: t) k d f = (k0, v0) :: tableModify t k d f := by
        simp [tableModify, hk]
      rw [hmod, dictKeys, List.map_cons, List.nodup_cons]
      refine ⟨?_, ih h.2⟩
      intro hmem
      rcases mem_keys_tableModify t k k0 d f hmem with rfl | hmem'
      · exact hk rfl
      · exact h.1 hmem'

theorem dictFind_eq_none_iff {α : Type} (m : List (String × α)) (k : String) :
    dictFind k m = none ↔ k ∉ dictKeys m := by
  induction m with
  | nil => simp [dictFind, dictKeys]
  | cons e m ih =>
    obtain ⟨k0, v0⟩ := e
    rw [dictKeys, List.map_cons]
    by_cases hk : k0 = k
    · subst hk
      simp [dictFind]
    · simp only [dictFind, if_neg hk, ih, List.mem_cons]
      simp [dictKeys, Ne.symm hk]

theorem maxItem_mem (p : String × Rat) (l : List (String × Rat)) :
    maxItem p l ∈ p :: l := by
  induction l generalizing p with
  | nil => simp [maxItem]
  | cons q l ih =>
    simp only [maxItem]
    split
    · rcases List.mem_cons.mp (ih q) with h | h
      · rw [h]
        simp
      · simp [h]
    · rcases List.mem_cons.mp (ih p) with h | h
      · rw [h]
        simp
      · simp [h]

theorem maxItem_le (l : List (String × Rat)) :
    ∀ (p : String × Rat), ∀ q ∈ p :: l, q.2 ≤ (maxItem p l).2 := by
  induction l with
  | nil =>
    intro p q hq
    rcases List.mem_cons.mp hq with rfl | h
    · exact le_rfl
    · simp at h
  | cons a l ih =>
    intro p q hq
    simp only [maxItem]
    split
    · rename_i hgt
      rcases List.mem_cons.mp hq with rfl | hq
      · exact le_of_lt (lt_of_lt_of_le hgt (ih a a (by simp)))
      · exact ih a q hq
    · rename_i hle
      push_neg at hle
      rcases List.mem_cons.mp hq with hq1 | hq2
      · rw [hq1]
        exact ih p p (by simp)
      · rcases List.mem_cons.mp hq2 with hq3 | hq4
        · rw [hq3]
          exact le_trans hle (ih p p (by simp))
        · exact ih p q (by simp [hq4])

theorem greedyFold_find (vals : List (String × List (String × Rat)))
    (pol : List (String × String)) (k : String) (hnd : (dictKeys vals).Nodup) :
    dictFind k (vals.foldl (fun policy entry =>
        match entry.2 with
        | [] => policy
        | p :: rest => dictSet policy entry.1 (maxItem p rest).1) pol) =
      match dictFind k vals with
      | some [] => dictFind k pol
      | some (p :: rest) => some (maxItem p rest).1
      | none => dictFind k pol := by
  induction vals generalizing pol with
  | nil => simp [dictFind]
  | cons e vals ih =>
    obtain ⟨k0, entry⟩ := e
    rw [dictKeys, List.map_cons, List.nodup_cons] at hnd
    rw [List.foldl_cons, ih _ hnd.2]
    by_cases hk : k0 = k
    · subst hk
      have hfv : dictFind k0 vals = none := (dictFind_eq_none_iff vals k0).mpr hnd.1
      rw [hfv]
      cases entry with
      | nil => simp [dictFind]
      | cons p rest => simp [dictFind, dictFind_dictSet_self]
    · have hfc : dictFind k ((k0, entry) :: vals) = dictFind k vals := by
        simp [dictFind, hk]
      rw [hfc]
      cases entry with
      | nil => rfl
      | cons p rest =>
        have hset : dictFind k (dictSet pol k0 (maxItem p rest).1) = dictFind k pol :=
          dictFind_dictSet_ne pol k0 k _ (fun hkk => hk hkk.symm)
        cases hfv : dictFind k vals with
        | none => simp [hset]
        | some entry2 => cases entry2 <;> simp [hset]

theorem select_action_values (ag : Agent) (key : String) (legal : List String) (r : Rat)
    (idx : Nat) (act : String) (ag' : Agent)
    (h : select_action ag key legal r idx = .ok (act, ag')) :
    ag' = ag ∨ (ag'.epsilon = ag.epsilon ∧ ag'.counts = ag.counts ∧
      ag'.values = tableModify ag.values key [] id) := by
  cases legal with
  | nil => exact absurd h (by simp [select_action])
  | cons a0 rest =>
    simp only [select_action] at h
    split at h
    · simp only [Except.ok.injEq, Prod.mk.injEq] at h
      exact Or.inl h.2.symm
    · simp only [Except.ok.injEq, Prod.mk.injEq] at h
      right
      rw [← h.2]
      exact ⟨rfl, rfl, rfl⟩

theorem update_values (ag : Agent) (key act : String) (reward : Rat) :
    (update ag key act reward).values =
      tableModify ag.values key [] (fun e => dictSet e act
        (dictGetD (dictGetD ag.values key []) act 0 +
          (reward - dictGetD (dictGetD ag.values key []) act 0) /
            ((dictGetD (dictGetD ag.counts key []) act 0 + 1 : Nat) : Rat))) := rfl

theorem applyOp_actions (ag : Agent) (op : AgentOp) (k a : String)
    (h : a ∈ dictKeys (dictGetD (applyOp ag op).values k [])) :
    a ∈ dictKeys (dictGetD ag.values k []) ∨ ∃ rw, op = AgentOp.upd k a rw := by
  cases op with
  | upd k1 a1 rw1 =>
    by_cases hk : k = k1
    · subst hk
      simp only [applyOp, update_values, dictGetD_tableModify_self] at h
      rcases mem_keys_dictSet _ _ _ _ h with rfl | h'
      · exact Or.inr ⟨rw1, rfl⟩
      · exact Or.inl h'
    · simp only [applyOp, update_values] at h
      rw [dictGetD_tableModify_ne _ _ _ _ _ hk] at h
      exact Or.inl h
  | sel k1 legal r idx =>
    simp only [applyOp] at h
    cases hsel : select_action ag k1 legal r idx with
    | error e =>
      rw [hsel] at h
      exact Or.inl h
    | ok p =>
      obtain ⟨act, ag'⟩ := p
      rw [hsel] at h
      rcases select_action_values ag k1 legal r idx act ag' hsel with rfl | ⟨-, -, hv⟩
      · exact Or.inl h
      · rw [hv] at h
        by_cases hk : k = k1
        · subst hk
          rw [dictGetD_tableModify_self] at h
          exact Or.inl (by simpa using h)
        · rw [dictGetD_tableModify_ne _ _ _ _ _ hk] at h
          exact Or.inl h

theorem applyOp_nodup (ag : Agent) (op : AgentOp)
    (h : (dictKeys ag.values).Nodup) : (dictKeys (applyOp ag op).values).Nodup := by
  cases op with
  | upd k a rw =>
    simp only [applyOp, update_values]
    exact nodup_tableModify _ _ _ _ h
  | sel k legal r idx =>
    simp only [applyOp]
    cases hsel : select_action ag k legal r idx with
    | error e => exact h
    | ok p =>
      obtain ⟨act, ag'⟩ := p
      rcases select_action_values ag k legal r idx act ag' hsel with rfl | ⟨-, -, hv⟩
      · exact h
      · rw [hv]
        exact nodup_tableModify _ _ _ _ h

theorem applyOps_nodup (ops : List AgentOp) (ag : Agent)
    (h : (dictKeys ag.values).Nodup) : (dictKeys (applyOps ops ag).values).Nodup := by
  induction ops generalizing ag with
  | nil => exact h
  | cons op ops ih => exact ih (applyOp ag op) (applyOp_nodup ag op h)

theorem applyOps_actions (ops : List AgentOp) (ag : Agent) (k a : String)
    (h : a ∈ dictKeys (dictGetD (applyOps ops ag).values k [])) :
    a ∈ dictKeys (dictGetD ag.values k []) ∨ ∃ rw, AgentOp.upd k a rw ∈ ops := by
  induction ops generalizing ag with
  | nil => exact Or.inl h
  | cons op ops ih =>
    rcases ih (applyOp ag op) h with h' | ⟨rw, hin⟩
    · rcases applyOp_actions ag op k a h' with h'' | ⟨rw, rfl⟩
      · exact Or.inl h''
      · exact Or.inr ⟨rw, by simp⟩
    · exact Or.inr ⟨rw, by simp [hin]⟩

theorem dictFind_map_entry {α β : Type} (f : α → β) (k : String) (m : List (String × α)) :
    dictFind k (m.map (fun e => (e.1, f e.2))) = (dictFind k m).map f := by
  induction m with
  | nil => rfl
  | cons e m ih =>
    obtain ⟨k0, v⟩ := e
    by_cases hk : k0 = k <;> simp [dictFind, hk, ih]

theorem dictFind_value_table (ag : Agent) (k : String) :
    dictFind k (value_table ag) = (dictFind k ag.values).map (fun e => e.map (fun p => p)) :=
  dictFind_map_entry _ k ag.values

/-- C10: calling `select_action` in the greedy branch with a state key absent
from the value table inserts an empty action dict for that key (the
`defaultdict` access `self._values[state_key]`), so the key then shows up in
`value_table()` mapped to an empty dict — an observable side effect — even
though `greedy_policy()` still skips the empty entry. -/
theorem select_action_side_effect (ag : Agent) (k : String) (a0 : String) (rest : List String)
    (r : Rat) (idx : Nat) (act : String) (ag' : Agent)
    (hmiss : dictFind k ag.values = none)
    (hgr : ¬ r < ag.epsilon)
    (h : select_action ag k (a0 :: rest) r idx = .ok (act, ag')) :
    dictFind k ag'.values = some [] ∧
    dictFind k (value_table ag') = some [] ∧
    ((dictKeys ag.values).Nodup → dictFind k (greedy_policy ag') = none) := by
  have hv : ag'.values = tableModify ag.values k [] id := by
    simp only [select_action] at h
    rw [if_neg hgr] at h
    simp only [Except.ok.injEq, Prod.mk.injEq] at h
    rw [← h.2]
  have hfind : dictFind k ag'.values = some [] := by
    rw [hv, dictFind_tableModify_self]
    simp [dictGetD, hmiss]
  refine ⟨hfind, ?_, ?_⟩
  · rw [dictFind_value_table, hfind]
    rfl
  · intro hnd
    have hnd' : (dictKeys ag'.values).Nodup := by
      rw [hv]
      exact nodup_tableModify _ _ _ _ hnd
    have hchar := greedyFold_find ag'.values [] k hnd'
    rw [greedy_policy, hchar, hfind]
    rfl

theorem select_action_side_effect_witness :
    dictFind "P1:Q:b" (value_table (⟨0, [("P1:Q:b", [])], []⟩ : Agent)) = some [] ∧
    dictFind "P1:Q:b" (greedy_policy (⟨0, [("P1:Q:b", [])], []⟩ : Agent)) = none := by
  have h := select_action_side_effect (freshAgent 0) "P1:Q:b" "call" ["fold"] 0 0 "call"
    ⟨0, [("P1:Q:b", [])], []⟩ rfl (by with_unfolding_all decide)
    (by with_unfolding_all decide)
  exact ⟨h.2.1, h.2.2 (by simp [freshAgent, dictKeys])⟩

/-- C9: for an agent built from a fresh table by any sequence of `update` and
`select_action` calls, `greedy_policy` maps a state key to an action exactly
when that key's recorded entry is non-empty, the returned action maximizes
the stored values in its entry, and it was previously passed to `update` for
that state; hence whenever all updates drew their action from that state's
legal set, the policy's action lies in a previously recorded legal set. -/
theorem greedy_policy_sound (eps : Rat) (ops : List AgentOp) (k act : String) :
    (dictFind k (greedy_policy (applyOps ops (freshAgent eps))) = some act →
      (∃ entry, dictFind k (applyOps ops (freshAgent eps)).values = some entry ∧
        entry ≠ [] ∧ ∃ v, (act, v) ∈ entry ∧ ∀ q ∈ entry, q.2 ≤ v) ∧
      (∃ rw, AgentOp.upd k act rw ∈ ops) ∧
      (∀ (L : String → String → Prop),
        (∀ k' a' rw, AgentOp.upd k' a' rw ∈ ops → L k' a') → L k act)) ∧
    (dictFind k (greedy_policy (applyOps ops (freshAgent eps))) = none ↔
      (dictFind k (applyOps ops (freshAgent eps)).values = none ∨
       dictFind k (applyOps ops (freshAgent eps)).values = some [])) := by
  have hnd : (dictKeys (applyOps ops (freshAgent eps)).values).Nodup :=
    applyOps_nodup ops (freshAgent eps) (by simp [freshAgent, dictKeys])
  have hchar := greedyFold_find (applyOps ops (freshAgent eps)).values [] k hnd
  rw [greedy_policy, hchar]
  cases hfv : dictFind k (applyOps ops (freshAgent eps)).values with
  | none =>
    refine ⟨fun hpol => absurd hpol (by simp [dictFind]), ?_⟩
    simp [dictFind]
  | some entry =>
    cases entry with
    | nil =>
      refine ⟨fun hpol => absurd hpol (by simp [dictFind]), ?_⟩
      simp [dictFind]
    | cons p rest =>
      constructor
      · intro hpol
        rw [Option.some.injEq] at hpol
        have hmem : (maxItem p rest) ∈ p :: rest := maxItem_mem p rest
        have hprov : ∃ rw, AgentOp.upd k act rw ∈ ops := by
          have hkeys : act ∈ dictKeys (dictGetD (applyOps ops (freshAgent eps)).values k []) := by
            rw [dictGetD, hfv]
            rw [← hpol]
            exact List.mem_map_of_mem Prod.fst hmem
          rcases applyOps_actions ops (freshAgent eps) k act hkeys with hfresh | hops
          · simp [freshAgent, dictGetD, dictFind, dictKeys] at hfresh
          · exact hops
        refine ⟨⟨p :: rest, rfl, by simp, (maxItem p rest).2, ?_, maxItem_le rest p⟩,
          hprov, ?_⟩
        · rw [← hpol]
          exact hmem
        · intro L hL
          obtain ⟨rw, hin⟩ := hprov
          exact hL k act rw hin
      · constructor
        · intro hcon
          exact absurd hcon (by simp)
        · intro hcon
          rcases hcon with hcon | hcon <;> exact absurd hcon (by simp)

theorem greedy_policy_sound_witness :
    ("s" : String) = "s" ∧ ("a" : String) ∈ (["a", "b"] : List String) := by
  have h := (greedy_policy_sound 0 [AgentOp.upd "s" "a" 1] "s" "a").1
    (by with_unfolding_all decide)
  exact ⟨rfl, h.2.2 (fun k0 a0 => a0 ∈ (["a", "b"] : List String))
    (fun k' a' rw hin => by
      simp only [List.mem_singleton] at hin
      cases hin
      simp)⟩

theorem runLoop_sound (fuel : Nat) :
    ∀ (s : EnvState) (ag0 ag1 : Agent) (rnd : List (Rat × Nat))
      (t0 t1 : List (String × String)) (res : EpisodeResult),
      EnvInv s → runLoop fuel s ag0 ag1 rnd t0 t1 = .ok res →
      (res.winner = 0 ∨ res.winner = 1) ∧
      res.ag0 = res.traj0.foldl
        (fun ag p => update ag p.1 p.2 (if 0 = res.winner then 1 else -1)) res.pre0 ∧
      res.ag1 = res.traj1.foldl
        (fun ag p => update ag p.1 p.2 (if 1 = res.winner then 1 else -1)) res.pre1 := by
  induction fuel with
  | zero =>
    intro s ag0 ag1 rnd t0 t1 res hinv h
    exact absurd h (by simp [runLoop])
  | succ fuel ih =>
    intro s ag0 ag1 rnd t0 t1 res hinv h
    simp only [runLoop] at h
    split at h
    · exact absurd h (by simp)
    · rename_i action agSel heqsel
      split at h
      · exact absurd h (by simp)
      · rename_i out s' heqstep
        have hsound := step_sound_apply s action out s' (step_sound s action hinv) heqstep
        split at h
        · split at h
          · exact absurd h (by simp)
          · rename_i w heqw
            rw [Except.ok.injEq] at h
            subst h
            refine ⟨?_, rfl, rfl⟩
            rcases hsound.2.1 with hw | hw | hw <;> rw [heqw] at hw
            · exact absurd hw (by simp)
            · rw [Option.some.injEq] at hw
              exact Or.inl hw
            · rw [Option.some.injEq] at hw
              exact Or.inr hw
        · split at h
          · exact absurd h (by simp)
          · exact ih s' _ _ _ _ _ _ hsound.1 h

/-- C1: whenever `run_episode` completes, the winning seat is 0 or 1, the pair
of terminal rewards assigned to the two seats is exactly one +1 and one -1
summing to 0, and each seat's final agent results from calling `update` on
every recorded (state, action) pair of that seat's trajectory with the seat's
constant terminal reward — the winner's pairs all with +1, the loser's all
with -1. -/
theorem run_episode_credit (c0 c1 : Card) (ag0 ag1 : Agent) (rnd : List (Rat × Nat))
    (res : EpisodeResult) (hc : c0 ≠ c1)
    (h : run_episode c0 c1 ag0 ag1 rnd = .ok res) :
    (res.winner = 0 ∨ res.winner = 1) ∧
    ((if 0 = res.winner then (1 : Rat) else -1) + (if 1 = res.winner then (1 : Rat) else -1)
      = 0) ∧
    ((if 0 = res.winner then (1 : Rat) else -1) = 1 ∧
        (if 1 = res.winner then (1 : Rat) else -1) = -1 ∨
      (if 0 = res.winner then (1 : Rat) else -1) = -1 ∧
        (if 1 = res.winner then (1 : Rat) else -1) = 1) ∧
    res.ag0 = res.traj0.foldl
      (fun ag p => update ag p.1 p.2 (if 0 = res.winner then 1 else -1)) res.pre0 ∧
    res.ag1 = res.traj1.foldl
      (fun ag p => update ag p.1 p.2 (if 1 = res.winner then 1 else -1)) res.pre1 := by
  have hmain := runLoop_sound 4 (resetState c0 c1) ag0 ag1 rnd [] [] res
    ⟨hc, Or.inl ⟨rfl, rfl, rfl⟩⟩ h
  refine ⟨hmain.1, ?_, ?_, hmain.2.1, hmain.2.2⟩
  · rcases hmain.1 with hw | hw <;> rw [hw] <;> norm_num
  · rcases hmain.1 with hw | hw <;> rw [hw]
    · left
      constructor <;> norm_num
    · right
      constructor <;> norm_num

theorem run_episode_credit_witness :
    Card.K ≠ Card.J ∧
    run_episode Card.K Card.J (freshAgent 0) (freshAgent 0) [] = .ok
      ⟨0, ⟨0, [("P0:K:", [("check", 1)])], [("P0:K:", [("check", 1)])]⟩,
          ⟨0, [("P1:J:p", [("check", -1)])], [("P1:J:p", [("check", 1)])]⟩,
          ⟨0, [("P0:K:", [])], []⟩, ⟨0, [("P1:J:p", [])], []⟩,
          [("P0:K:", "check")], [("P1:J:p", "check")]⟩ ∧
    ((0 : Nat) = 0 ∨ (0 : Nat) = 1) := by
  refine ⟨by decide, by with_unfolding_all decide, ?_⟩
  exact (run_episode_credit Card.K Card.J (freshAgent 0) (freshAgent 0) []
    ⟨0, ⟨0, [("P0:K:", [("check", 1)])], [("P0:K:", [("check", 1)])]⟩,
        ⟨0, [("P1:J:p", [("check", -1)])], [("P1:J:p", [("check", 1)])]⟩,
        ⟨0, [("P0:K:", [])], []⟩, ⟨0, [("P1:J:p", [])], []⟩,
        [("P0:K:", "check")], [("P1:J:p", "check")]⟩
    (by decide) (by with_unfolding_all decide)).1
